import Mathlib

/-!
Verification of the variant-distribution aggregator and renderer scripts.

The repository's four Python scripts share one pipeline:
load → clean → aggregate → render.  We embed the data-bearing parts:

* `clean` / `clean_data` — `df.replace(-1, 0)` in
  `variant_graph_generator*.py` (`clean_data`).
* `equalWeightBar` — the equal-weight stacked-bar aggregation of
  `variant_graph_generator_v4.py` (`create_split_graph`, lines 77–100):
  each segment is `raw / count` where `count` is the number of
  sequencers with a value `> 0`, and rows with `raw <= 0` are skipped.
* `rawBar` — the raw stacked-bar aggregation of the second script inside
  `variant_graph_generator_v2.py` (`create_split_graph`, lines 331–354):
  each segment is the raw value itself, rows `<= 0` skipped.
* `proportionalBar` — the proportional normalization policy, which is
  described but not implemented in `compare_data.py`; it is modelled
  from the spec.
* `load_variant_data` / `loadFile` / `lookupRow` — the loader, which
  reads one table per variant, cleans it, and looks up one row per
  sequencer; a missing file or row raises (here: `Except.error`).

Percentages are embedded as rationals (the scripts do exact arithmetic
on small decimal values; no claim concerns rounding).
-/

namespace VariantGraph

/-- The fixed declared instrument list (`SEQUENCERS` in every script). -/
def SEQUENCERS : List String := ["China MGISEQ-2000", "DE MiniSeq", "UK HiSeq 2500"]

/-- Cleaner on a single value: `df.replace(-1, 0)` pointwise
(`clean_data` in `variant_graph_generator.py` lines 64–66). -/
def clean (v : ℚ) : ℚ := if v = -1 then 0 else v

/-- One row of a variant table: the `early` and `late` percentage columns. -/
structure Row where
  early : ℚ
  late : ℚ
deriving Repr, DecidableEq

/-- A variant table, as read from one `early_late_var<N>.csv`: rows keyed
by instrument name (the `index_col=0` of `pd.read_csv`). -/
abbrev VariantTable := List (String × Row)

/-- Cleaner on a whole table: `clean_data(df) = df.replace(-1, 0)`
(`variant_graph_generator_v2.py` lines 71–73). -/
def clean_data (df : VariantTable) : VariantTable :=
  df.map (fun p => (p.1, ⟨clean p.2.early, clean p.2.late⟩))

/-- The documented input domain of a percentage cell (spec §3): either a
measured value in `[0, 100]` or the sentinel `-1` ("not measured"). -/
def ValidRaw (v : ℚ) : Prop := (0 ≤ v ∧ v ≤ 100) ∨ v = -1

instance : DecidablePred ValidRaw := fun v => by
  unfold ValidRaw; infer_instance

/-- One stacked-bar segment emitted by the aggregator: the instrument it
belongs to and its stacked height. -/
structure Segment where
  instrument : String
  height : ℚ
deriving Repr, DecidableEq

/-- A variant/timing bucket: per-instrument percentages in declared
instrument order (what `dataset[seq][i]` for `seq in SEQUENCERS` yields). -/
abbrev Bucket := List (String × ℚ)

/-- Cleaning a bucket pointwise. -/
def cleanBucket (b : Bucket) : Bucket := b.map (fun p => (p.1, clean p.2))

/-- Count of instruments with a nonzero (`> 0`) value:
`count = len([... if dataset[seq][i] > 0])` in
`variant_graph_generator_v4.py` line 79–80. -/
def nonzeroCount (b : Bucket) : Nat :=
  (b.filter (fun p => decide (0 < p.2))).length

/-- The nonzero (`> 0`) values of a bucket, in declared order. -/
def nonzeroVals (b : Bucket) : List ℚ :=
  (b.filter (fun p => decide (0 < p.2))).map Prod.snd

/-- Total of the nonzero values of a bucket. -/
def nonzeroTotal (b : Bucket) : ℚ := (nonzeroVals b).sum

/-- Raw-policy segment loop (`variant_graph_generator_v2.py` lines
338–354): for each sequencer in declared order, skip if the value is
`<= 0`, otherwise emit the value itself as the segment height. -/
def rawSegments : Bucket → List Segment
  | [] => []
  | p :: rest =>
    if p.2 ≤ 0 then rawSegments rest
    else ⟨p.1, p.2⟩ :: rawSegments rest

/-- Raw aggregation policy for one bucket (`create_split_graph` in the
second script of `variant_graph_generator_v2.py`): if no sequencer has a
value `> 0` the bar is skipped (`if not valid_seqs: continue`), otherwise
each positive value becomes its own segment. -/
def rawBar (b : Bucket) : List Segment :=
  if nonzeroCount b = 0 then [] else rawSegments b

/-- Equal-weight segment loop (`variant_graph_generator_v4.py` lines
86–100): for each sequencer in declared order, skip if the value is
`<= 0` (`if raw <= 0: continue`), otherwise emit `raw / count`. -/
def ewSegments (count : Nat) : Bucket → List Segment
  | [] => []
  | p :: rest =>
    if p.2 ≤ 0 then ewSegments count rest
    else ⟨p.1, p.2 / (count : ℚ)⟩ :: ewSegments count rest

/-- Equal-weight aggregation policy for one bucket
(`variant_graph_generator_v4.py` lines 77–100): `count` is the number of
sequencers with value `> 0`; if `count == 0` the bar is skipped
(`continue`), otherwise each positive value contributes `raw / count`. -/
def equalWeightBar (b : Bucket) : List Segment :=
  if nonzeroCount b = 0 then [] else ewSegments (nonzeroCount b) b

/-- Proportional segment loop: skip values `<= 0`, otherwise emit
`raw / S * 100` where `S` is the total of the nonzero values. -/
def propSegments (S : ℚ) : Bucket → List Segment
  | [] => []
  | p :: rest =>
    if p.2 ≤ 0 then propSegments S rest
    else ⟨p.1, p.2 / S * 100⟩ :: propSegments S rest

/-- Modelled from the spec: the proportional normalization policy is only
described, not implemented, in `src/compare_data.py` (spec §4.3:
"segment height = raw percentage ÷ total of nonzero raw values × 100,
guaranteeing the stack sums to exactly 100 when at least one instrument
has a nonzero value"; the bar is omitted when no instrument has a
nonzero value, per the §4.3 edge case). -/
def proportionalBar (b : Bucket) : List Segment :=
  if nonzeroTotal b ≤ 0 then [] else propSegments (nonzeroTotal b) b

/-- Total stacked height of a segment list (the final `bottom` after the
loop, i.e. the bar's total height). -/
def heightTotal (segs : List Segment) : ℚ := (segs.map (fun s => s.height)).sum

/-- Sum of all values in a bucket. -/
def bucketTotal (b : Bucket) : ℚ := (b.map Prod.snd).sum

/-- Row lookup `df.loc[seq, ...]` (`load_variant_data`): a missing
instrument row raises a `KeyError`. -/
def lookupRow (df : VariantTable) (seq : String) : Except String Row :=
  match df.find? (fun p => decide (p.1 = seq)) with
  | some p => .ok p.2
  | none => .error ("KeyError: " ++ seq)

/-- The loader's per-file sequencer loop (`for sequencer in SEQUENCERS:
early_data[...].append(df.loc[sequencer, "early"]) ...`): look up each
named row in order; the first missing row aborts the run. -/
def collectRows (df : VariantTable) : List String → Except String (List (String × Row))
  | [] => .ok []
  | seq :: rest =>
    match lookupRow df seq with
    | .error e => .error e
    | .ok r =>
      match collectRows df rest with
      | .error e => .error e
      | .ok rs => .ok ((seq, r) :: rs)

/-- The per-variant data the loader hands to the aggregator: one bucket
for the `early` column and one for the `late` column, in declared
instrument order (the appended entries of `early_data` / `late_data`). -/
structure LoadedVariant where
  earlyBucket : Bucket
  lateBucket : Bucket
deriving Repr, DecidableEq

/-- Loading one variant file (`load_variant_data` body for one `file`):
clean the table (`df = clean_data(df)`), then look up each sequencer row
and store its `early` and `late` values. -/
def loadFile (df : VariantTable) : Except String LoadedVariant :=
  match collectRows (clean_data df) SEQUENCERS with
  | .error e => .error e
  | .ok rows =>
    .ok ⟨rows.map (fun p => (p.1, p.2.early)), rows.map (fun p => (p.1, p.2.late))⟩

/-- The loader over all variant files (`load_variant_data`): a `none`
entry models a missing input file (`pd.read_csv` raises
`FileNotFoundError`); any raised error aborts the whole run. -/
def load_variant_data : List (Option VariantTable) → Except String (List LoadedVariant)
  | [] => .ok []
  | none :: _ => .error "FileNotFoundError"
  | some df :: rest =>
    match loadFile df with
    | .error e => .error e
    | .ok v =>
      match load_variant_data rest with
      | .error e => .error e
      | .ok vs => .ok (v :: vs)

/-! ### Helper lemmas -/

/-- Cleaning never produces the sentinel. -/
theorem clean_ne_sentinel (v : ℚ) : clean v ≠ -1 := by
  unfold clean
  by_cases h : v = -1 <;> simp [h]

/-- Cleaning a value from the documented input domain is non-negative. -/
theorem clean_nonneg_of_valid (v : ℚ) (h : ValidRaw v) : 0 ≤ clean v := by
  unfold clean
  rcases h with ⟨h0, _⟩ | h1
  · by_cases h : v = -1 <;> simp [h, h0]
  · simp [h1]

/-- The raw segment loop is the positive-value rows, kept in order. -/
theorem rawSegments_eq (b : Bucket) :
    rawSegments b
      = (b.filter (fun p => decide (0 < p.2))).map (fun p => ⟨p.1, p.2⟩) := by
  induction b with
  | nil => rfl
  | cons p rest ih =>
    by_cases h : p.2 ≤ 0
    · have h' : ¬ (0 < p.2) := not_lt.mpr h
      simp [rawSegments, h, h', ih]
    · have h' : 0 < p.2 := lt_of_not_le h
      simp [rawSegments, h, h', ih]

/-- The equal-weight segment loop is the positive-value rows divided by
the given count, kept in order. -/
theorem ewSegments_eq (count : Nat) (b : Bucket) :
    ewSegments count b
      = (b.filter (fun p => decide (0 < p.2))).map
          (fun p => ⟨p.1, p.2 / (count : ℚ)⟩) := by
  induction b with
  | nil => rfl
  | cons p rest ih =>
    by_cases h : p.2 ≤ 0
    · have h' : ¬ (0 < p.2) := not_lt.mpr h
      simp [ewSegments, h, h', ih]
    · have h' : 0 < p.2 := lt_of_not_le h
      simp [ewSegments, h, h', ih]

/-- The proportional segment loop is the positive-value rows scaled by
`100 / S`, kept in order. -/
theorem propSegments_eq (S : ℚ) (b : Bucket) :
    propSegments S b
      = (b.filter (fun p => decide (0 < p.2))).map
          (fun p => ⟨p.1, p.2 / S * 100⟩) := by
  induction b with
  | nil => rfl
  | cons p rest ih =>
    by_cases h : p.2 ≤ 0
    · have h' : ¬ (0 < p.2) := not_lt.mpr h
      simp [propSegments, h, h', ih]
    · have h' : 0 < p.2 := lt_of_not_le h
      simp [propSegments, h, h', ih]

/-- The `count == 0` guard of the raw policy is redundant: with no
positive value the loop emits nothing anyway. -/
theorem rawBar_eq_rawSegments (b : Bucket) : rawBar b = rawSegments b := by
  unfold rawBar
  by_cases h : nonzeroCount b = 0
  · have : (b.filter (fun p => decide (0 < p.2))) = [] :=
      List.length_eq_zero.mp h
    simp [h, rawSegments_eq, this]
  · simp [h]

/-- Summing a list divided elementwise by a constant. -/
theorem sum_map_div (l : List ℚ) (c : ℚ) :
    (l.map (fun v => v / c)).sum = l.sum / c := by
  induction l with
  | nil => simp
  | cons x xs ih => simp [ih, add_div]

/-- Summing a list rescaled elementwise by `100 / c`. -/
theorem sum_map_div_mul (l : List ℚ) (c : ℚ) :
    (l.map (fun v => v / c * 100)).sum = l.sum / c * 100 := by
  induction l with
  | nil => simp
  | cons x xs ih => simp [ih, add_div, add_mul]

/-- `nonzeroCount` counts the entries of `nonzeroVals`. -/
theorem nonzeroVals_length (b : Bucket) :
    (nonzeroVals b).length = nonzeroCount b := by
  simp [nonzeroVals, nonzeroCount]

/-! ### Claim theorems -/

/-- C6: for every percentage value `v`, `clean v` equals `0` if `v = -1`
and equals `v` otherwise, and `clean` is idempotent:
`clean (clean v) = clean v`. -/
theorem clean_spec (v : ℚ) :
    (clean v = if v = -1 then 0 else v) ∧ clean (clean v) = clean v := by
  refine ⟨rfl, ?_⟩
  unfold clean
  by_cases h : v = -1 <;> simp [h]

/-- C1: for every input table whose cells are in the documented input
domain (a value in `[0, 100]` or the sentinel `-1`), after the Cleaner
runs every percentage value is non-negative, and the sentinel `-1`
appears in no cell handed on to the Aggregator and Renderer. -/
theorem clean_data_invariant (df : VariantTable)
    (h : ∀ p ∈ df, ValidRaw p.2.early ∧ ValidRaw p.2.late) :
    ∀ q ∈ clean_data df,
      (0 ≤ q.2.early ∧ q.2.early ≠ -1) ∧ (0 ≤ q.2.late ∧ q.2.late ≠ -1) := by
  intro q hq
  simp only [clean_data, List.mem_map] at hq
  obtain ⟨p, hp, rfl⟩ := hq
  obtain ⟨he, hl⟩ := h p hp
  exact ⟨⟨clean_nonneg_of_valid _ he, clean_ne_sentinel _⟩,
         ⟨clean_nonneg_of_valid _ hl, clean_ne_sentinel _⟩⟩

/-- C1 witness: cleaning the one-row table China = (40, sentinel) yields
the row (40, 0), which is non-negative and sentinel-free in both cells. -/
theorem clean_data_invariant_witness :
    (0 ≤ (Row.mk 40 0).early ∧ (Row.mk 40 0).early ≠ -1) ∧
    (0 ≤ (Row.mk 40 0).late ∧ (Row.mk 40 0).late ≠ -1) :=
  clean_data_invariant [("China MGISEQ-2000", ⟨40, -1⟩)]
    (by intro p hp; simp only [List.mem_singleton] at hp; subst hp
        constructor <;> [left; right] <;> norm_num [ValidRaw])
    ("China MGISEQ-2000", ⟨40, 0⟩)
    (by norm_num [clean_data, clean])

/-- C3: under the raw policy, for every bucket, the segments are exactly
the rows with a positive cleaned value taken in declared instrument
order (rows with a value not above zero contribute no segment), and the
stack height is the sum of those nonzero cleaned values. -/
theorem raw_policy_spec (raws : Bucket) :
    rawBar (cleanBucket raws)
      = ((cleanBucket raws).filter (fun p => decide (0 < p.2))).map
          (fun p => ⟨p.1, p.2⟩) ∧
    heightTotal (rawBar (cleanBucket raws)) = (nonzeroVals (cleanBucket raws)).sum := by
  constructor
  · rw [rawBar_eq_rawSegments, rawSegments_eq]
  · rw [rawBar_eq_rawSegments, rawSegments_eq]
    simp [heightTotal, nonzeroVals, Function.comp_def]

/-- C2: under the equal-weight policy, for every bucket with at least one
nonzero cleaned value, each included segment is the row's value divided
by the count `k` of instruments with a nonzero value, and the stack
total is the arithmetic mean of the nonzero values. -/
theorem equal_weight_policy_spec (b : Bucket) (h : nonzeroCount b ≠ 0) :
    equalWeightBar b
      = (b.filter (fun p => decide (0 < p.2))).map
          (fun p => ⟨p.1, p.2 / (nonzeroCount b : ℚ)⟩) ∧
    heightTotal (equalWeightBar b)
      = (nonzeroVals b).sum / ((nonzeroVals b).length : ℚ) := by
  have hbar : equalWeightBar b
      = (b.filter (fun p => decide (0 < p.2))).map
          (fun p => ⟨p.1, p.2 / (nonzeroCount b : ℚ)⟩) := by
    unfold equalWeightBar
    rw [if_neg h, ewSegments_eq]
  refine ⟨hbar, ?_⟩
  rw [hbar, nonzeroVals_length]
  simp only [heightTotal, List.map_map, Function.comp_def]
  rw [← sum_map_div (nonzeroVals b) (nonzeroCount b : ℚ)]
  simp [nonzeroVals, List.map_map, Function.comp_def]

/-- C2 witness: the spec's fixture bucket (China = 40, DE = 0, UK = 60):
two nonzero values, segments 20 and 30, total the mean 50. -/
theorem equal_weight_policy_spec_witness :
    equalWeightBar
        [("China MGISEQ-2000", 40), ("DE MiniSeq", 0), ("UK HiSeq 2500", 60)]
      = ([("China MGISEQ-2000", (40:ℚ)), ("DE MiniSeq", 0), ("UK HiSeq 2500", 60)].filter
            (fun p => decide (0 < p.2))).map
          (fun p => ⟨p.1, p.2 / ((nonzeroCount
              [("China MGISEQ-2000", 40), ("DE MiniSeq", 0), ("UK HiSeq 2500", 60)] : Nat) : ℚ)⟩) ∧
    heightTotal (equalWeightBar
        [("China MGISEQ-2000", 40), ("DE MiniSeq", 0), ("UK HiSeq 2500", 60)])
      = (nonzeroVals
            [("China MGISEQ-2000", 40), ("DE MiniSeq", 0), ("UK HiSeq 2500", 60)]).sum
          / ((nonzeroVals
            [("China MGISEQ-2000", 40), ("DE MiniSeq", 0), ("UK HiSeq 2500", 60)]).length : ℚ) :=
  equal_weight_policy_spec
    [("China MGISEQ-2000", 40), ("DE MiniSeq", 0), ("UK HiSeq 2500", 60)]
    (by norm_num [nonzeroCount])

/-- C10: in the equal-weight aggregation the division by `count` is
guarded: segments exist only when the count of nonzero instruments is
positive (the `count == 0` bucket is skipped before any division), and
every emitted segment has strictly positive height because rows with a
value not above zero are skipped before the division. -/
theorem equal_weight_division_guard (b : Bucket) :
    (equalWeightBar b ≠ [] → 0 < nonzeroCount b) ∧
    ∀ s ∈ equalWeightBar b, 0 < s.height := by
  constructor
  · intro hne
    by_cases h : nonzeroCount b = 0
    · exact absurd (by simp [equalWeightBar, h]) hne
    · exact Nat.pos_of_ne_zero h
  · intro s hs
    by_cases h : nonzeroCount b = 0
    · simp [equalWeightBar, h] at hs
    · rw [equalWeightBar, if_neg h, ewSegments_eq] at hs
      simp only [List.mem_map, List.mem_filter, decide_eq_true_eq] at hs
      obtain ⟨p, ⟨_, hpos⟩, rfl⟩ := hs
      exact div_pos hpos (by exact_mod_cast Nat.pos_of_ne_zero h)

/-- C10 witness: on the fixture bucket the first emitted segment,
China at `40 / 2 = 20`, has strictly positive height. -/
theorem equal_weight_division_guard_witness :
    (0:ℚ) < (Segment.mk "China MGISEQ-2000" 20).height :=
  (equal_weight_division_guard
      [("China MGISEQ-2000", 40), ("DE MiniSeq", 0), ("UK HiSeq 2500", 60)]).2
    ⟨"China MGISEQ-2000", 20⟩
    (by norm_num [equalWeightBar, nonzeroCount, ewSegments])

/-- C5: for every bucket in which every raw value is `0` or the sentinel
`-1`, after cleaning both implemented aggregation policies produce no
segments at all: the bar is omitted with zero total height (and, the
total functions being total, no error arises). -/
theorem zero_bar_spec (raws : Bucket)
    (h : ∀ p ∈ raws, p.2 = 0 ∨ p.2 = -1) :
    equalWeightBar (cleanBucket raws) = [] ∧
    rawBar (cleanBucket raws) = [] ∧
    heightTotal (equalWeightBar (cleanBucket raws)) = 0 ∧
    heightTotal (rawBar (cleanBucket raws)) = 0 := by
  have hcount : nonzeroCount (cleanBucket raws) = 0 := by
    unfold nonzeroCount
    rw [List.length_eq_zero, List.filter_eq_nil_iff]
    intro q hq
    simp only [cleanBucket, List.mem_map] at hq
    obtain ⟨p, hp, rfl⟩ := hq
    rcases h p hp with h0 | h1
    · simp [clean, h0]
    · simp [clean, h1]
  have he : equalWeightBar (cleanBucket raws) = [] := by
    simp [equalWeightBar, hcount]
  have hr : rawBar (cleanBucket raws) = [] := by
    simp [rawBar, hcount]
  exact ⟨he, hr, by simp [he, heightTotal], by simp [hr, heightTotal]⟩

/-- C5 witness: the all-omitted bucket (China = 0, DE = −1, UK = 0)
yields no segments and zero height under both policies. -/
theorem zero_bar_spec_witness :
    equalWeightBar (cleanBucket
        [("China MGISEQ-2000", 0), ("DE MiniSeq", -1), ("UK HiSeq 2500", 0)]) = [] ∧
    rawBar (cleanBucket
        [("China MGISEQ-2000", 0), ("DE MiniSeq", -1), ("UK HiSeq 2500", 0)]) = [] ∧
    heightTotal (equalWeightBar (cleanBucket
        [("China MGISEQ-2000", 0), ("DE MiniSeq", -1), ("UK HiSeq 2500", 0)])) = 0 ∧
    heightTotal (rawBar (cleanBucket
        [("China MGISEQ-2000", 0), ("DE MiniSeq", -1), ("UK HiSeq 2500", 0)])) = 0 :=
  zero_bar_spec
    [("China MGISEQ-2000", 0), ("DE MiniSeq", -1), ("UK HiSeq 2500", 0)]
    (by intro p hp
        simp only [List.mem_cons, List.mem_singleton] at hp
        rcases hp with rfl | rfl | rfl | hp
        · left; rfl
        · right; rfl
        · left; rfl
        · exact absurd hp (List.not_mem_nil p))

/-- C8: for every bucket whose rows are in the declared `SEQUENCERS`
order, and under every aggregation policy, the emitted segments keep
that bottom-to-top order: their instrument sequence is a subsequence of
`SEQUENCERS`, never reordered by magnitude. -/
theorem segment_order_spec (b : Bucket) (hb : b.map Prod.fst = SEQUENCERS) :
    ((rawBar b).map (fun s => s.instrument)).Sublist SEQUENCERS ∧
    ((equalWeightBar b).map (fun s => s.instrument)).Sublist SEQUENCERS ∧
    ((proportionalBar b).map (fun s => s.instrument)).Sublist SEQUENCERS := by
  have hfilter : ∀ g : (String × ℚ) → Segment,
      (∀ p, (g p).instrument = p.1) →
      (((b.filter (fun p => decide (0 < p.2))).map g).map
          (fun s => s.instrument)).Sublist SEQUENCERS := by
    intro g hg
    rw [← hb]
    have : ((b.filter (fun p => decide (0 < p.2))).map g).map
        (fun s => s.instrument)
        = (b.filter (fun p => decide (0 < p.2))).map Prod.fst := by
      simp [List.map_map, Function.comp_def, hg]
    rw [this]
    exact (List.filter_sublist b).map Prod.fst
  refine ⟨?_, ?_, ?_⟩
  · rw [rawBar_eq_rawSegments, rawSegments_eq]
    exact hfilter _ (fun p => rfl)
  · by_cases h : nonzeroCount b = 0
    · simp [equalWeightBar, h]
    · rw [equalWeightBar, if_neg h, ewSegments_eq]
      exact hfilter _ (fun p => rfl)
  · by_cases h : nonzeroTotal b ≤ 0
    · simp [proportionalBar, h]
    · rw [proportionalBar, if_neg h, propSegments_eq]
      exact hfilter _ (fun p => rfl)

/-- C8 witness: on the fixture bucket, in declared row order, all three
policies emit instrument sequences that are subsequences of
`SEQUENCERS`. -/
theorem segment_order_spec_witness :
    ((rawBar [("China MGISEQ-2000", 40), ("DE MiniSeq", 0), ("UK HiSeq 2500", 60)]).map
        (fun s => s.instrument)).Sublist SEQUENCERS ∧
    ((equalWeightBar [("China MGISEQ-2000", 40), ("DE MiniSeq", 0), ("UK HiSeq 2500", 60)]).map
        (fun s => s.instrument)).Sublist SEQUENCERS ∧
    ((proportionalBar [("China MGISEQ-2000", 40), ("DE MiniSeq", 0), ("UK HiSeq 2500", 60)]).map
        (fun s => s.instrument)).Sublist SEQUENCERS :=
  segment_order_spec
    [("China MGISEQ-2000", 40), ("DE MiniSeq", 0), ("UK HiSeq 2500", 60)]
    (by rfl)

/-- C4: under the (spec-modelled) proportional normalization policy, for
every bucket whose nonzero values sum to `S > 0`, each emitted segment
is the row's value divided by `S` and scaled by 100, in declared order,
and the stack total is exactly 100. -/
theorem proportional_policy_spec (b : Bucket) (h : 0 < nonzeroTotal b) :
    proportionalBar b
      = (b.filter (fun p => decide (0 < p.2))).map
          (fun p => ⟨p.1, p.2 / nonzeroTotal b * 100⟩) ∧
    heightTotal (proportionalBar b) = 100 := by
  have hbar : proportionalBar b
      = (b.filter (fun p => decide (0 < p.2))).map
          (fun p => ⟨p.1, p.2 / nonzeroTotal b * 100⟩) := by
    unfold proportionalBar
    rw [if_neg (not_le.mpr h), propSegments_eq]
  refine ⟨hbar, ?_⟩
  rw [hbar]
  simp only [heightTotal, List.map_map, Function.comp_def]
  have : ((b.filter (fun p => decide (0 < p.2))).map
      (fun p => p.2 / nonzeroTotal b * 100)).sum
      = ((nonzeroVals b).map (fun v => v / nonzeroTotal b * 100)).sum := by
    simp [nonzeroVals, List.map_map, Function.comp_def]
  rw [this, sum_map_div_mul, ← nonzeroTotal, div_self (ne_of_gt h)]
  norm_num

/-- C4 witness: the fixture bucket has `S = 100 > 0`; the proportional
segments are 40 and 60 and the stack total is exactly 100. -/
theorem proportional_policy_spec_witness :
    proportionalBar
        [("China MGISEQ-2000", 40), ("DE MiniSeq", 0), ("UK HiSeq 2500", 60)]
      = ([("China MGISEQ-2000", (40:ℚ)), ("DE MiniSeq", 0), ("UK HiSeq 2500", 60)].filter
            (fun p => decide (0 < p.2))).map
          (fun p => ⟨p.1, p.2 / nonzeroTotal
              [("China MGISEQ-2000", 40), ("DE MiniSeq", 0), ("UK HiSeq 2500", 60)] * 100⟩) ∧
    heightTotal (proportionalBar
        [("China MGISEQ-2000", 40), ("DE MiniSeq", 0), ("UK HiSeq 2500", 60)]) = 100 :=
  proportional_policy_spec
    [("China MGISEQ-2000", 40), ("DE MiniSeq", 0), ("UK HiSeq 2500", 60)]
    (by norm_num [nonzeroTotal, nonzeroVals])

/-! ### Loader lemmas -/

/-- A successful row-collection proves every requested row was found. -/
theorem collectRows_ok_find (df : VariantTable) (keys : List String)
    (rows : List (String × Row)) (hok : collectRows df keys = .ok rows) :
    ∀ k ∈ keys, (df.find? (fun p => decide (p.1 = k))).isSome := by
  induction keys generalizing rows with
  | nil => intro k hk; exact absurd hk (List.not_mem_nil k)
  | cons seq rest ih =>
    intro k hk
    unfold collectRows at hok
    cases hl : lookupRow df seq with
    | error e => rw [hl] at hok; exact absurd hok (by simp)
    | ok r =>
      rw [hl] at hok
      cases hrec : collectRows df rest with
      | error e => rw [hrec] at hok; exact absurd hok (by simp)
      | ok rs =>
        rcases List.mem_cons.mp hk with rfl | hk'
        · unfold lookupRow at hl
          cases hf : df.find? (fun p => decide (p.1 = k)) with
          | none => rw [hf] at hl; exact absurd hl (by simp)
          | some p => simp [hf]
        · exact ih rs hrec k hk'

/-- A successful load proves every file was present and loaded. -/
theorem load_ok_complete (files : List (Option VariantTable))
    (loaded : List LoadedVariant)
    (hok : load_variant_data files = .ok loaded) :
    ∀ f ∈ files, ∃ df, f = some df ∧ ∃ lv, loadFile df = .ok lv := by
  induction files generalizing loaded with
  | nil => intro f hf; exact absurd hf (List.not_mem_nil f)
  | cons f0 rest ih =>
    intro f hf
    cases f0 with
    | none => exact absurd hok (by simp [load_variant_data])
    | some df0 =>
      unfold load_variant_data at hok
      cases hl : loadFile df0 with
      | error e => rw [hl] at hok; exact absurd hok (by simp)
      | ok v =>
        rw [hl] at hok
        cases hrec : load_variant_data rest with
        | error e => rw [hrec] at hok; exact absurd hok (by simp)
        | ok vs =>
          rcases List.mem_cons.mp hf with rfl | hf'
          · exact ⟨df0, rfl, v, hl⟩
          · exact ih vs hrec f hf'

/-- A successful per-file load proves its row-collection succeeded. -/
theorem loadFile_ok_collect (df : VariantTable) (lv : LoadedVariant)
    (hok : loadFile df = .ok lv) :
    ∃ rows, collectRows (clean_data df) SEQUENCERS = .ok rows := by
  unfold loadFile at hok
  cases hc : collectRows (clean_data df) SEQUENCERS with
  | error e => rw [hc] at hok; exact absurd hok (by simp)
  | ok rows => exact ⟨rows, rfl⟩

/-- Row collection ignores a leading row whose key is not requested. -/
theorem collectRows_cons_of_not_mem (seq : String) (r : Row)
    (df : VariantTable) (keys : List String) (h : seq ∉ keys) :
    collectRows ((seq, r) :: df) keys = collectRows df keys := by
  induction keys with
  | nil => rfl
  | cons k ks ih =>
    have hne : ¬ seq = k := fun hk => h (hk ▸ List.mem_cons_self seq ks)
    have hlook : lookupRow ((seq, r) :: df) k = lookupRow df k := by
      unfold lookupRow
      rw [List.find?_cons_of_neg _ (by simpa using hne)]
    have hrest : seq ∉ ks := fun hk => h (List.mem_cons_of_mem k hk)
    unfold collectRows
    rw [hlook, ih hrest]

/-- Collecting exactly the table's own distinct keys returns the table. -/
theorem collectRows_exact (keys : List String) (df : VariantTable)
    (hk : df.map Prod.fst = keys) (hnd : keys.Nodup) :
    collectRows df keys = .ok df := by
  induction keys generalizing df with
  | nil =>
    have : df = [] := List.map_eq_nil_iff.mp hk
    subst this; rfl
  | cons k ks ih =>
    cases df with
    | nil => exact absurd hk (by simp)
    | cons p df' =>
      simp only [List.map_cons, List.cons.injEq] at hk
      obtain ⟨hpk, hdf'⟩ := hk
      have hnotmem : k ∉ ks := (List.nodup_cons.mp hnd).1
      have hnd' : ks.Nodup := (List.nodup_cons.mp hnd).2
      have hlook : lookupRow (p :: df') k = .ok p.2 := by
        unfold lookupRow
        rw [List.find?_cons_of_pos _ (by simp [hpk])]
      have hrec : collectRows (p :: df') ks = .ok df' := by
        have : collectRows (p :: df') ks = collectRows df' ks := by
          have := collectRows_cons_of_not_mem p.1 p.2 df' ks (hpk ▸ hnotmem)
          simpa using this
        rw [this, ih df' hdf' hnd']
      unfold collectRows
      rw [hlook, hrec]
      have hkp : (k, p.2) = p := by
        cases p; simp at hpk ⊢; exact hpk.symm
      show Except.ok ((k, p.2) :: df') = Except.ok (p :: df')
      rw [hkp]

/-- Cleaning a table preserves its row keys. -/
theorem clean_data_keys (df : VariantTable) :
    (clean_data df).map Prod.fst = df.map Prod.fst := by
  simp [clean_data, List.map_map, Function.comp_def]

/-- The declared instrument list has no duplicates. -/
theorem sequencers_nodup : SEQUENCERS.Nodup := by decide

/-- Loading a conforming file (rows exactly `SEQUENCERS`, in order)
succeeds and hands the cleaned columns on as buckets. -/
theorem loadFile_conforming (df : VariantTable)
    (hk : df.map Prod.fst = SEQUENCERS) :
    loadFile df
      = .ok ⟨(clean_data df).map (fun p => (p.1, p.2.early)),
             (clean_data df).map (fun p => (p.1, p.2.late))⟩ := by
  have hck : (clean_data df).map Prod.fst = SEQUENCERS := by
    rw [clean_data_keys, hk]
  have hc : collectRows (clean_data df) SEQUENCERS = .ok (clean_data df) :=
    collectRows_exact SEQUENCERS (clean_data df) hck sequencers_nodup
  unfold loadFile
  rw [hc]

/-- With only non-negative values the raw bar's total height is the
bucket's full sum: the skipped rows are exactly the zero rows. -/
theorem rawBar_total_of_nonneg (b : Bucket) (h : ∀ p ∈ b, 0 ≤ p.2) :
    heightTotal (rawBar b) = bucketTotal b := by
  rw [rawBar_eq_rawSegments]
  induction b with
  | nil => rfl
  | cons p rest ih =>
    have hp : 0 ≤ p.2 := h p (List.mem_cons_self p rest)
    have hrest : ∀ q ∈ rest, 0 ≤ q.2 := fun q hq => h q (List.mem_cons_of_mem p hq)
    by_cases hle : p.2 ≤ 0
    · have hzero : p.2 = 0 := le_antisymm hle hp
      have h1 : rawSegments (p :: rest) = rawSegments rest := by
        simp [rawSegments, hle]
      have h2 : bucketTotal (p :: rest) = bucketTotal rest := by
        simp [bucketTotal, hzero]
      rw [h1, h2, ih hrest]
    · have h1 : rawSegments (p :: rest) = ⟨p.1, p.2⟩ :: rawSegments rest := by
        simp [rawSegments, hle]
      have h2 : heightTotal ((⟨p.1, p.2⟩ : Segment) :: rawSegments rest)
          = p.2 + heightTotal (rawSegments rest) := by
        simp [heightTotal]
      have h3 : bucketTotal (p :: rest) = p.2 + bucketTotal rest := by
        simp [bucketTotal]
      rw [h1, h2, h3, ih hrest]

/-- Summing two mapped columns of a list elementwise. -/
theorem sum_map_add_columns (l : List (String × Row)) :
    (l.map (fun p => p.2.early)).sum + (l.map (fun p => p.2.late)).sum
      = (l.map (fun p => p.2.early + p.2.late)).sum := by
  induction l with
  | nil => simp
  | cons p rest ih => simp [← ih]; ring

/-- Loading one conforming valid file and raw-aggregating both timing
buckets reproduces the file's total cleaned value. -/
theorem loadFile_raw_total (df : VariantTable)
    (hk : df.map Prod.fst = SEQUENCERS)
    (hv : ∀ p ∈ df, ValidRaw p.2.early ∧ ValidRaw p.2.late) :
    ∃ lv, loadFile df = .ok lv ∧
      heightTotal (rawBar lv.earlyBucket) + heightTotal (rawBar lv.lateBucket)
        = ((clean_data df).map (fun p => p.2.early + p.2.late)).sum := by
  refine ⟨_, loadFile_conforming df hk, ?_⟩
  have hclean : ∀ q ∈ clean_data df, 0 ≤ q.2.early ∧ 0 ≤ q.2.late := by
    intro q hq
    simp only [clean_data, List.mem_map] at hq
    obtain ⟨p, hp, rfl⟩ := hq
    exact ⟨clean_nonneg_of_valid _ (hv p hp).1, clean_nonneg_of_valid _ (hv p hp).2⟩
  have he : heightTotal (rawBar ((clean_data df).map (fun p => (p.1, p.2.early))))
      = ((clean_data df).map (fun p => p.2.early)).sum := by
    rw [rawBar_total_of_nonneg]
    · simp [bucketTotal, List.map_map, Function.comp_def]
    · intro q hq
      simp only [List.mem_map] at hq
      obtain ⟨p, hp, rfl⟩ := hq
      exact (hclean p hp).1
  have hl : heightTotal (rawBar ((clean_data df).map (fun p => (p.1, p.2.late))))
      = ((clean_data df).map (fun p => p.2.late)).sum := by
    rw [rawBar_total_of_nonneg]
    · simp [bucketTotal, List.map_map, Function.comp_def]
    · intro q hq
      simp only [List.mem_map] at hq
      obtain ⟨p, hp, rfl⟩ := hq
      exact (hclean p hp).2
  rw [he, hl]
  exact sum_map_add_columns (clean_data df)

/-- C9: for every run in which an expected input file is missing (`none`
entry) or an expected instrument row is absent from a loaded table, the
Loader aborts with an error; it never returns a mapping built from
incomplete data. -/
theorem loader_aborts_on_missing (files : List (Option VariantTable))
    (h : none ∈ files ∨
         ∃ df, some df ∈ files ∧ ∃ seq ∈ SEQUENCERS,
           (clean_data df).find? (fun p => decide (p.1 = seq)) = none) :
    ∃ e, load_variant_data files = .error e := by
  cases hload : load_variant_data files with
  | error e => exact ⟨e, rfl⟩
  | ok loaded =>
    exfalso
    rcases h with hnone | ⟨df, hmem, seq, hseq, hfind⟩
    · obtain ⟨df, hdf, -⟩ := load_ok_complete files loaded hload none hnone
      exact Option.noConfusion hdf
    · obtain ⟨df', hdf', lv, hlv⟩ := load_ok_complete files loaded hload (some df) hmem
      have hdd : df = df' := Option.some.inj hdf'
      subst hdd
      obtain ⟨rows, hrows⟩ := loadFile_ok_collect df lv hlv
      have := collectRows_ok_find (clean_data df) SEQUENCERS rows hrows seq hseq
      rw [hfind] at this
      exact Option.noConfusion (Option.isSome_iff_exists.mp this).choose_spec

/-- C9 witness: a run whose only table lacks the `DE MiniSeq` and
`UK HiSeq 2500` rows is aborted with an error. -/
theorem loader_aborts_on_missing_witness :
    ∃ e, load_variant_data
        [some [("China MGISEQ-2000", ⟨40, 50⟩)]] = .error e :=
  loader_aborts_on_missing [some [("China MGISEQ-2000", ⟨40, 50⟩)]]
    (Or.inr ⟨[("China MGISEQ-2000", ⟨40, 50⟩)], by simp,
             "DE MiniSeq", by decide, by decide⟩)

/-- C7: loading conforming valid input tables (one row per declared
instrument, values in the documented domain) succeeds, and aggregating
every variant and timing bucket with the raw policy yields segments
whose grand total equals the sum of all cleaned raw input values. -/
theorem raw_roundtrip (files : List VariantTable)
    (hkeys : ∀ df ∈ files, df.map Prod.fst = SEQUENCERS)
    (hvalid : ∀ df ∈ files, ∀ p ∈ df, ValidRaw p.2.early ∧ ValidRaw p.2.late) :
    ∃ loaded, load_variant_data (files.map some) = .ok loaded ∧
      (loaded.map (fun lv =>
          heightTotal (rawBar lv.earlyBucket) + heightTotal (rawBar lv.lateBucket))).sum
        = (files.map (fun df =>
            ((clean_data df).map (fun p => p.2.early + p.2.late)).sum)).sum := by
  induction files with
  | nil => exact ⟨[], rfl, by simp⟩
  | cons df rest ih =>
    obtain ⟨lv, hlv, hsum⟩ := loadFile_raw_total df
      (hkeys df (List.mem_cons_self df rest))
      (hvalid df (List.mem_cons_self df rest))
    obtain ⟨loadedRest, hrest, hsumRest⟩ := ih
      (fun d hd => hkeys d (List.mem_cons_of_mem df hd))
      (fun d hd => hvalid d (List.mem_cons_of_mem df hd))
    refine ⟨lv :: loadedRest, ?_, ?_⟩
    · show load_variant_data (some df :: rest.map some) = .ok (lv :: loadedRest)
      unfold load_variant_data
      rw [hlv, hrest]
    · simp only [List.map_cons, List.sum_cons, hsum, hsumRest]

/-- C7 witness: one conforming table (China 40/10, DE sentinel/20,
UK 60/30); the loaded raw segments total the cleaned input sum. -/
theorem raw_roundtrip_witness :
    ∃ loaded, load_variant_data
        ([[("China MGISEQ-2000", ⟨40, 10⟩), ("DE MiniSeq", ⟨-1, 20⟩),
           ("UK HiSeq 2500", ⟨60, 30⟩)]].map some) = .ok loaded ∧
      (loaded.map (fun lv =>
          heightTotal (rawBar lv.earlyBucket) + heightTotal (rawBar lv.lateBucket))).sum
        = ([[("China MGISEQ-2000", (⟨40, 10⟩ : Row)), ("DE MiniSeq", ⟨-1, 20⟩),
             ("UK HiSeq 2500", ⟨60, 30⟩)]].map (fun df =>
            ((clean_data df).map (fun p => p.2.early + p.2.late)).sum)).sum :=
  raw_roundtrip
    [[("China MGISEQ-2000", ⟨40, 10⟩), ("DE MiniSeq", ⟨-1, 20⟩),
      ("UK HiSeq 2500", ⟨60, 30⟩)]]
    (by decide) (by decide)

end VariantGraph
